import Mathlib

/-!
Verification of the preprocessor core of `rust-cpp-parser`
(`src/lexer/preprocessor/preprocessor.rs`), shallowly embedded in Lean 4.

Bytes are modelled as `Nat` values below 256, buffers as `List Nat`, and the
byte cursor as an explicit index into the buffer.  Stateful Rust methods are
embedded as pure functions that thread the relevant state explicitly.
-/

/-- Character kinds used by the preprocessor micro-scanner, transcribed from
the `Kind` enum (`repr(u8)` values preserved in `Kind.val`). -/
inductive Kind where
  | IDE  -- usual id parts
  | IDL  -- L for string starter
  | IDR  -- R
  | IDU  -- U
  | IDu  -- u
  | NUM  -- 0-9
  | SPA  -- space
  | HAS  -- hash
  | QUO  -- double or single quote
  | RET  -- newline
  | SLA  -- slash
  | BAC  -- backslash
  | NON  -- nothing
  deriving DecidableEq, Repr

/-- The `repr(u8)` discriminant of each `Kind`, used for the `PartialOrd`
comparisons (`kind > Kind::NUM`, `kind <= Kind::NUM`) in the source. -/
def Kind.val : Kind → Nat
  | .IDE => 0
  | .IDL => 1
  | .IDR => 2
  | .IDU => 3
  | .IDu => 4
  | .NUM => 5
  | .SPA => 6
  | .HAS => 7
  | .QUO => 8
  | .RET => 9
  | .SLA => 10
  | .BAC => 11
  | .NON => 12

/-- The 256-entry classification table `PPCHARS`, transcribed row by row from
the source (8 entries per line, same layout as the Rust table). -/
def PPCHARS : List Kind := [
  -- 0 NUL .. 7 BEL
  Kind.NON, Kind.NON, Kind.NON, Kind.NON, Kind.NON, Kind.NON, Kind.NON, Kind.NON,
  -- 8 BS, 9 HT, A NL, B VT, C NP, D CR, E SO, F SI
  Kind.NON, Kind.SPA, Kind.RET, Kind.NON, Kind.NON, Kind.NON, Kind.NON, Kind.NON,
  -- 10 DLE .. 17 ETB
  Kind.NON, Kind.NON, Kind.NON, Kind.NON, Kind.NON, Kind.NON, Kind.NON, Kind.NON,
  -- 18 CAN .. 1F US
  Kind.NON, Kind.NON, Kind.NON, Kind.NON, Kind.NON, Kind.NON, Kind.NON, Kind.NON,
  -- 20 SP, !, ", #, $, %, &, '
  Kind.SPA, Kind.NON, Kind.QUO, Kind.HAS, Kind.NON, Kind.NON, Kind.NON, Kind.QUO,
  -- 28 (, ), *, +, comma, -, ., /
  Kind.NON, Kind.NON, Kind.NON, Kind.NON, Kind.NON, Kind.NON, Kind.NON, Kind.SLA,
  -- 30 0 .. 7
  Kind.NUM, Kind.NUM, Kind.NUM, Kind.NUM, Kind.NUM, Kind.NUM, Kind.NUM, Kind.NUM,
  -- 38 8, 9, :, ;, <, =, >, ?
  Kind.NUM, Kind.NUM, Kind.NON, Kind.NON, Kind.NON, Kind.NON, Kind.NON, Kind.NON,
  -- 40 @, A, B, C, D, E, F, G
  Kind.NON, Kind.IDE, Kind.IDE, Kind.IDE, Kind.IDE, Kind.IDE, Kind.IDE, Kind.IDE,
  -- 48 H, I, J, K, L, M, N, O
  Kind.IDE, Kind.IDE, Kind.IDE, Kind.IDE, Kind.IDL, Kind.IDE, Kind.IDE, Kind.IDE,
  -- 50 P, Q, R, S, T, U, V, W
  Kind.IDE, Kind.IDE, Kind.IDR, Kind.IDE, Kind.IDE, Kind.IDU, Kind.IDE, Kind.IDE,
  -- 58 X, Y, Z, [, backslash, ], ^, _
  Kind.IDE, Kind.IDE, Kind.IDE, Kind.NON, Kind.BAC, Kind.NON, Kind.NON, Kind.IDE,
  -- 60 `, a, b, c, d, e, f, g
  Kind.NON, Kind.IDE, Kind.IDE, Kind.IDE, Kind.IDE, Kind.IDE, Kind.IDE, Kind.IDE,
  -- 68 h .. o
  Kind.IDE, Kind.IDE, Kind.IDE, Kind.IDE, Kind.IDE, Kind.IDE, Kind.IDE, Kind.IDE,
  -- 70 p, q, r, s, t, u, v, w
  Kind.IDE, Kind.IDE, Kind.IDE, Kind.IDE, Kind.IDE, Kind.IDu, Kind.IDE, Kind.IDE,
  -- 78 x, y, z, lbrace, |, rbrace, ~, DEL
  Kind.IDE, Kind.IDE, Kind.IDE, Kind.NON, Kind.NON, Kind.NON, Kind.NON, Kind.NON,
  -- 80 .. FF
  Kind.IDE, Kind.IDE, Kind.IDE, Kind.IDE, Kind.IDE, Kind.IDE, Kind.IDE, Kind.IDE,
  Kind.IDE, Kind.IDE, Kind.IDE, Kind.IDE, Kind.IDE, Kind.IDE, Kind.IDE, Kind.IDE,
  Kind.IDE, Kind.IDE, Kind.IDE, Kind.IDE, Kind.IDE, Kind.IDE, Kind.IDE, Kind.IDE,
  Kind.IDE, Kind.IDE, Kind.IDE, Kind.IDE, Kind.IDE, Kind.IDE, Kind.IDE, Kind.IDE,
  Kind.IDE, Kind.IDE, Kind.IDE, Kind.IDE, Kind.IDE, Kind.IDE, Kind.IDE, Kind.IDE,
  Kind.IDE, Kind.IDE, Kind.IDE, Kind.IDE, Kind.IDE, Kind.IDE, Kind.IDE, Kind.IDE,
  Kind.IDE, Kind.IDE, Kind.IDE, Kind.IDE, Kind.IDE, Kind.IDE, Kind.IDE, Kind.IDE,
  Kind.IDE, Kind.IDE, Kind.IDE, Kind.IDE, Kind.IDE, Kind.IDE, Kind.IDE, Kind.IDE,
  Kind.IDE, Kind.IDE, Kind.IDE, Kind.IDE, Kind.IDE, Kind.IDE, Kind.IDE, Kind.IDE,
  Kind.IDE, Kind.IDE, Kind.IDE, Kind.IDE, Kind.IDE, Kind.IDE, Kind.IDE, Kind.IDE,
  Kind.IDE, Kind.IDE, Kind.IDE, Kind.IDE, Kind.IDE, Kind.IDE, Kind.IDE, Kind.IDE,
  Kind.IDE, Kind.IDE, Kind.IDE, Kind.IDE, Kind.IDE, Kind.IDE, Kind.IDE, Kind.IDE,
  Kind.IDE, Kind.IDE, Kind.IDE, Kind.IDE, Kind.IDE, Kind.IDE, Kind.IDE, Kind.IDE,
  Kind.IDE, Kind.IDE, Kind.IDE, Kind.IDE, Kind.IDE, Kind.IDE, Kind.IDE, Kind.IDE,
  Kind.IDE, Kind.IDE, Kind.IDE, Kind.IDE, Kind.IDE, Kind.IDE, Kind.IDE, Kind.IDE,
  Kind.IDE, Kind.IDE, Kind.IDE, Kind.IDE, Kind.IDE, Kind.IDE, Kind.IDE, Kind.IDE]

/-- The unchecked table lookup `PPCHARS.get_unchecked(c as usize)` (every
index fed to it is a byte, hence below 256). -/
def ppkind (c : Nat) : Kind := PPCHARS.getD c Kind.NON

/-- The classification of a byte value as worded by the specification:
tab/space are `Space`, line feed is `NewLine`, `#` `Hash`, `/` `Slash`,
`\` `Backslash`, quotes are `Quote`, digits `Digit`, `L R U u` the dedicated
identifier-start kinds, other letters, underscore and bytes at or above
0x80 `IdentStart`, everything else `Other`.  Written from the spec's words,
to be compared with the table transcribed from the source. -/
def specByteClass (b : Nat) : Kind :=
  if b = 9 ∨ b = 32 then .SPA
  else if b = 10 then .RET
  else if b = 35 then .HAS
  else if b = 47 then .SLA
  else if b = 92 then .BAC
  else if b = 34 ∨ b = 39 then .QUO
  else if 48 ≤ b ∧ b ≤ 57 then .NUM
  else if b = 76 then .IDL
  else if b = 82 then .IDR
  else if b = 85 then .IDU
  else if b = 117 then .IDu
  else if (65 ≤ b ∧ b ≤ 90) ∨ (97 ≤ b ∧ b ≤ 122) ∨ b = 95 ∨ 128 ≤ b then .IDE
  else .NON

set_option maxRecDepth 16000

/-- C4: `PPCHARS` is total over byte values 0..255 and agrees everywhere with
the classification the specification describes: tab and space map to `Space`,
line feed to `NewLine`, `#` to `Hash`, `/` to `Slash`, `\` to `Backslash`,
both quotes to `Quote`, digits to `Digit`, `L`/`R`/`U`/`u` to their dedicated
identifier-start kinds, all other ASCII letters, underscore and all bytes at
or above 0x80 to `IdentStart`, and every remaining byte to `Other`. -/
theorem ppchars_matches_spec :
    PPCHARS.length = 256 ∧ ∀ b : Fin 256, ppkind b.val = specByteClass b.val := by
  constructor
  · rfl
  · decide

/-! ## Conditional-compilation state machine -/

/-- The three conditional states of an active `#if` chain (`IfState` in
`context.rs`), each carrying the byte offset of the directive that produced
it. -/
inductive IfState where
  | Eval (pos : Nat)
  | Skip (pos : Nat)
  | SkipAndSwitch (pos : Nat)
  deriving DecidableEq, Repr

/-- Discriminant test used by the source through
`std::mem::discriminant(state) == std::mem::discriminant(&IfState::Eval(0))`. -/
def IfState.isEval : IfState → Bool
  | .Eval _ => true
  | _ => false

/-- The directive offset carried by a conditional state. -/
def IfState.dirPos : IfState → Nat
  | .Eval p => p
  | .Skip p => p
  | .SkipAndSwitch p => p

/-- The kind of conditional directive (`IfKind` in `context.rs`). -/
inductive IfKind where
  | If
  | Ifdef
  | Ifndef
  deriving DecidableEq, Repr

/-- Lexer errors touched by the embedded routines (`LexerError` carries more
variants in the source; only these are produced by the code under study).
Spans are pairs of start/end byte offsets. -/
inductive LexerError where
  | EndifWithoutPreceedingIf (sp : Nat × Nat)
  | ErrorDirective (sp : Nat × Nat) (msg : List Nat)
  deriving DecidableEq, Repr

/-- The preprocessor state threaded through the conditional machinery:
the LIFO conditional stack (`context.if_state`/`add_if`/`rm_if`/`if_change`),
the skip cache for the current source (`(directive pos, next pos)` pairs,
most recent first), and the byte cursor. -/
structure PPState where
  stack : List IfState
  cache : List (Nat × Nat)
  bufpos : Nat
  deriving DecidableEq, Repr

/-- Modelled from the spec: `IfCache` (in `cache.rs`, outside `src/`) records
`directive pos → next branch pos`; `save_switch` inserts a pair. -/
def save_switch (st : PPState) (prev pos : Nat) : PPState :=
  { st with cache := (prev, pos) :: st.cache }

/-- Modelled from the spec: `skip_until_next` looks the directive position up
in the skip cache and returns the memoized next branch position, if any. -/
def skip_until_next (st : PPState) (pos : Nat) : Option Nat :=
  st.cache.lookup pos

/-- External condition oracles consumed by `get_if` (spec section 6): the
`#if` expression evaluator, and the macro-store `defined` probe used by
`#ifdef` / `#ifndef`, both indexed by the directive position whose condition
they decide. -/
structure PPOracle where
  condAt : Nat → Bool
  definedAt : Nat → Bool

/-- `get_if`: if the enclosing state is `Eval` (or the stack is empty),
evaluate the condition of this directive; on true push `Eval(pos)` and return
true, on false consult the skip cache (jumping the cursor on a hit) and push
`SkipAndSwitch(pos)`; if the enclosing state is skipping, push `Skip(pos)`
unconditionally and return false. -/
def get_if (o : PPOracle) (kind : IfKind) (pos : Nat) (st : PPState) :
    Bool × PPState :=
  let must_eval := match st.stack.head? with
    | some s => s.isEval
    | none => true
  if must_eval then
    let condition := match kind with
      | .If => o.condAt pos
      | .Ifdef => o.definedAt pos
      | .Ifndef => !o.definedAt pos
    if condition then
      (true, { st with stack := IfState.Eval pos :: st.stack })
    else
      let st1 := match skip_until_next st pos with
        | some next => { st with bufpos := next }
        | none => st
      (false, { st1 with stack := IfState.SkipAndSwitch pos :: st1.stack })
  else
    (false, { st with stack := IfState.Skip pos :: st.stack })

/-- `get_elif`: from `Eval(prev)` jump via the cache (recording the switch on
a miss) and switch the top state to `Skip(pos)`; from `Skip(prev)` record and
stay skipping; from `SkipAndSwitch(prev)` record, pop, and re-enter as a
fresh `#if` at this position.  `none` models the `unreachable!()` hit when
the conditional stack is empty. -/
def get_elif (o : PPOracle) (pos : Nat) (st : PPState) :
    Option (Bool × PPState) :=
  match st.stack with
  | [] => none
  | state :: rest =>
    match state with
    | .Eval prev =>
      let st1 := match skip_until_next st pos with
        | some next => { st with bufpos := next }
        | none => save_switch st prev pos
      some (false, { st1 with stack := IfState.Skip pos :: rest })
    | .Skip prev =>
      let st1 := save_switch st prev pos
      some (false, { st1 with stack := IfState.Skip pos :: rest })
    | .SkipAndSwitch prev =>
      let st1 := save_switch st prev pos
      some (get_if o .If pos { st1 with stack := rest })

/-- `get_else`: from `Eval(prev)` jump via the cache (recording on a miss)
and switch to `Skip(pos)`; from `Skip(prev)` record and stay skipping; from
`SkipAndSwitch(prev)` record and switch to `Eval(pos)`, returning true.
`none` models the `unreachable!()` hit when the stack is empty. -/
def get_else (pos : Nat) (st : PPState) : Option (Bool × PPState) :=
  match st.stack with
  | [] => none
  | state :: rest =>
    match state with
    | .Eval prev =>
      let st1 := match skip_until_next st pos with
        | some next => { st with bufpos := next }
        | none => save_switch st prev pos
      some (false, { st1 with stack := IfState.Skip pos :: rest })
    | .Skip prev =>
      let st1 := save_switch st prev pos
      some (false, { st1 with stack := IfState.Skip pos :: rest })
    | .SkipAndSwitch prev =>
      let st1 := save_switch st prev pos
      some (true, { st1 with stack := IfState.Eval pos :: rest })

/-- `get_endif`: record the switch, pop the top state, and report whether
emission resumes (new top `Eval`, or empty stack = outer scope); with an
empty stack, the `EndifWithoutPreceedingIf` error is returned and the state
is left untouched. -/
def get_endif (pos : Nat) (sp : Nat × Nat) (st : PPState) :
    Except LexerError Bool × PPState :=
  match st.stack with
  | [] => (.error (.EndifWithoutPreceedingIf sp), st)
  | state :: rest =>
    let st1 := save_switch st state.dirPos pos
    let st2 := { st1 with stack := rest }
    let r := match rest with
      | [] => true
      | s :: _ => s.isEval
    (.ok r, st2)

/-- C2: on a non-empty conditional stack, `get_else` turns a top
`SkipAndSwitch` state into `Eval(pos)` and returns true (emission resumes),
and turns a top `Eval` or `Skip` state into `Skip(pos)` returning false. -/
theorem get_else_transitions (pos : Nat) (s : IfState) (rest : List IfState)
    (cache : List (Nat × Nat)) (bp : Nat) :
    (get_else pos ⟨s :: rest, cache, bp⟩).map (fun r => (r.1, r.2.stack)) =
      some (match s with
            | .SkipAndSwitch _ => (true, IfState.Eval pos :: rest)
            | _ => (false, IfState.Skip pos :: rest)) := by
  cases s with
  | Eval prev =>
    simp only [get_else]
    cases h : skip_until_next ⟨IfState.Eval prev :: rest, cache, bp⟩ pos <;>
      simp [h, save_switch]
  | Skip prev => rfl
  | SkipAndSwitch prev => rfl

/-- C3: `get_endif` on a non-empty stack records the switch, pops the top
state, and returns true exactly when the new top is `Eval` (an emptied stack
counting as the outer `Eval` scope); on an empty stack it returns the
`EndifWithoutPreceedingIf` error and leaves the state untouched. -/
theorem get_endif_spec (pos : Nat) (sp : Nat × Nat) (stack : List IfState)
    (cache : List (Nat × Nat)) (bp : Nat) :
    get_endif pos sp ⟨stack, cache, bp⟩ =
      match stack with
      | [] => (.error (LexerError.EndifWithoutPreceedingIf sp),
               ⟨stack, cache, bp⟩)
      | state :: rest =>
          (.ok (match rest with
                | [] => true
                | s :: _ => s.isEval),
           ⟨rest, (state.dirPos, pos) :: cache, bp⟩) := by
  cases stack with
  | nil => rfl
  | cons state rest => cases rest <;> rfl

/-! ## One chain of `#if` / `#elif` / `#else` (claim C1) -/

/-- Drive one `#elif` per listed position through `get_elif`, collecting the
emission verdicts (`true` = the branch is entered and emitted). -/
def run_elifs (o : PPOracle) (elifs : List Nat) (st : PPState)
    (acc : List Bool) : List Bool × PPState :=
  match elifs with
  | [] => (acc, st)
  | p :: ps =>
    match get_elif o p st with
    | some (b, st1) => run_elifs o ps st1 (acc ++ [b])
    | none => (acc, st)

/-- Drive one full conditional chain: the opening `#if`/`#ifdef`/`#ifndef`
through `get_if`, each `#elif` through `get_elif`, and the optional `#else`
through `get_else`, collecting the per-branch emission verdicts. -/
def run_chain (o : PPOracle) (kind : IfKind) (ifPos : Nat) (elifs : List Nat)
    (elsePos : Option Nat) (st : PPState) : List Bool × PPState :=
  let r0 := get_if o kind ifPos st
  let r1 := run_elifs o elifs r0.2 [r0.1]
  match elsePos with
  | some p =>
    match get_else p r1.2 with
    | some (b, st2) => (r1.1 ++ [b], st2)
    | none => r1
  | none => r1

/-- The enclosing scope is emitting: the conditional stack is empty (outer
scope) or its top state is `Eval`. -/
def outerEval (stack : List IfState) : Prop :=
  match stack with
  | [] => True
  | s :: _ => s.isEval = true

/-- Invariant tying the branch verdicts collected so far to the chain's own
stack entry: the entry sits on top of the unchanged enclosing stack, and
either no branch has been emitted yet and the entry is `SkipAndSwitch`, or
exactly one has and the entry is `Eval` or `Skip`. -/
def chainInv (rest : List IfState) (bs : List Bool) (st : PPState) : Prop :=
  ∃ top, st.stack = top :: rest ∧
    ((bs.count true = 0 ∧ ∃ q, top = IfState.SkipAndSwitch q) ∨
     (bs.count true = 1 ∧
       ((∃ q, top = IfState.Eval q) ∨ ∃ q, top = IfState.Skip q)))

/-- Under an emitting enclosing scope, `get_if` pushes `Eval(pos)` exactly
when it returns true and `SkipAndSwitch(pos)` when it returns false, leaving
the rest of the stack unchanged. -/
theorem get_if_stack (o : PPOracle) (kind : IfKind) (p : Nat) (st : PPState)
    (h : outerEval st.stack) :
    (get_if o kind p st).2.stack =
      (if (get_if o kind p st).1 then IfState.Eval p
       else IfState.SkipAndSwitch p) :: st.stack := by
  obtain ⟨stack, cache, bp⟩ := st
  have hm : (match (stack : List IfState).head? with
      | some s => s.isEval
      | none => true) = true := by
    cases stack with
    | nil => rfl
    | cons s r => simpa [outerEval] using h
  simp only [get_if, hm, if_true]
  cases hcond : (match kind with
      | IfKind.If => o.condAt p
      | IfKind.Ifdef => o.definedAt p
      | IfKind.Ifndef => !o.definedAt p) with
  | true => simp
  | false => cases hl : skip_until_next ⟨stack, cache, bp⟩ p <;> simp [hl]

/-- Opening a chain establishes the chain invariant. -/
theorem get_if_inv (o : PPOracle) (kind : IfKind) (p : Nat) (st : PPState)
    (h : outerEval st.stack) :
    chainInv st.stack [(get_if o kind p st).1] (get_if o kind p st).2 := by
  have hs := get_if_stack o kind p st h
  cases hb : (get_if o kind p st).1 with
  | true =>
    exact ⟨_, by rw [hs, hb]; simp, Or.inr ⟨by simp, Or.inl ⟨p, rfl⟩⟩⟩
  | false =>
    exact ⟨_, by rw [hs, hb]; simp, Or.inl ⟨by simp, p, rfl⟩⟩

/-- One `#elif` step preserves the chain invariant (and never hits the
`unreachable!()`). -/
theorem get_elif_inv (o : PPOracle) (p : Nat) (rest : List IfState)
    (bs : List Bool) (st : PPState) (ho : outerEval rest)
    (hinv : chainInv rest bs st) :
    ∃ b st1, get_elif o p st = some (b, st1) ∧
      chainInv rest (bs ++ [b]) st1 := by
  obtain ⟨top, hstack, hcase⟩ := hinv
  obtain ⟨stack, cache, bp⟩ := st
  simp only at hstack
  subst hstack
  cases top with
  | Eval q =>
    rcases hcase with ⟨_, _, habs⟩ | ⟨h1, _⟩
    · simp at habs
    · cases hl : skip_until_next ⟨IfState.Eval q :: rest, cache, bp⟩ p with
      | none =>
        refine ⟨false, ⟨IfState.Skip p :: rest, (q, p) :: cache, bp⟩,
          by simp [get_elif, hl, save_switch], ?_⟩
        exact ⟨IfState.Skip p, rfl,
          Or.inr ⟨by simpa using h1, Or.inr ⟨p, rfl⟩⟩⟩
      | some nxt =>
        refine ⟨false, ⟨IfState.Skip p :: rest, cache, nxt⟩,
          by simp [get_elif, hl], ?_⟩
        exact ⟨IfState.Skip p, rfl,
          Or.inr ⟨by simpa using h1, Or.inr ⟨p, rfl⟩⟩⟩
  | Skip q =>
    rcases hcase with ⟨_, _, habs⟩ | ⟨h1, _⟩
    · simp at habs
    · refine ⟨false, ⟨IfState.Skip p :: rest, (q, p) :: cache, bp⟩,
        by simp [get_elif, save_switch], ?_⟩
      exact ⟨IfState.Skip p, rfl,
        Or.inr ⟨by simpa using h1, Or.inr ⟨p, rfl⟩⟩⟩
  | SkipAndSwitch q =>
    rcases hcase with ⟨h0, _, _⟩ | ⟨_, ⟨q', habs⟩ | ⟨q', habs⟩⟩
    · have hif := get_if_inv o .If p
        { stack := rest, cache := (q, p) :: cache, bufpos := bp } ho
      refine ⟨(get_if o .If p
          { stack := rest, cache := (q, p) :: cache, bufpos := bp }).1,
        (get_if o .If p
          { stack := rest, cache := (q, p) :: cache, bufpos := bp }).2,
        by simp [get_elif, save_switch], ?_⟩
      obtain ⟨top', hst', hc'⟩ := hif
      refine ⟨top', hst', ?_⟩
      rcases hc' with ⟨hz, hw⟩ | ⟨hz, hw⟩
      · exact Or.inl ⟨by simp_all, hw⟩
      · exact Or.inr ⟨by simp_all, hw⟩
    · simp at habs
    · simp at habs

/-- Running a list of `#elif`s preserves the chain invariant. -/
theorem run_elifs_inv (o : PPOracle) (ps : List Nat) (rest : List IfState)
    (ho : outerEval rest) :
    ∀ bs st, chainInv rest bs st →
      chainInv rest (run_elifs o ps st bs).1 (run_elifs o ps st bs).2 := by
  induction ps with
  | nil => intro bs st h; simpa [run_elifs] using h
  | cons p ps ih =>
    intro bs st h
    obtain ⟨b, st1, heq, hinv⟩ := get_elif_inv o p rest bs st ho h
    simpa [run_elifs, heq] using ih _ _ hinv

/-- The `#else` step closes the count at exactly one emitted branch. -/
theorem get_else_inv (p : Nat) (rest : List IfState) (bs : List Bool)
    (st : PPState) (hinv : chainInv rest bs st) :
    ∃ b st1, get_else p st = some (b, st1) ∧ (bs ++ [b]).count true = 1 := by
  obtain ⟨top, hstack, hcase⟩ := hinv
  obtain ⟨stack, cache, bp⟩ := st
  simp only at hstack
  subst hstack
  cases top with
  | Eval q =>
    rcases hcase with ⟨_, _, habs⟩ | ⟨h1, _⟩
    · simp at habs
    · cases hl : skip_until_next ⟨IfState.Eval q :: rest, cache, bp⟩ p with
      | none =>
        exact ⟨false, ⟨IfState.Skip p :: rest, (q, p) :: cache, bp⟩,
          by simp [get_else, hl, save_switch], by simpa using h1⟩
      | some nxt =>
        exact ⟨false, ⟨IfState.Skip p :: rest, cache, nxt⟩,
          by simp [get_else, hl], by simpa using h1⟩
  | Skip q =>
    rcases hcase with ⟨_, _, habs⟩ | ⟨h1, _⟩
    · simp at habs
    · exact ⟨false, ⟨IfState.Skip p :: rest, (q, p) :: cache, bp⟩,
        by simp [get_else, save_switch], by simpa using h1⟩
  | SkipAndSwitch q =>
    rcases hcase with ⟨h0, _, _⟩ | ⟨_, ⟨q', habs⟩ | ⟨q', habs⟩⟩
    · exact ⟨true, ⟨IfState.Eval p :: rest, (q, p) :: cache, bp⟩,
        by simp [get_else, save_switch], by simpa using h0⟩
    · simp at habs
    · simp at habs

/-- C1 (counterexample): a matched chain whose `#if` condition is false, with
no `#elif` and no `#else` (`#if 0` ... `#endif`), emits none of its branches:
the number of transitions into `Eval` is 0, not exactly one as the claim
states. -/
theorem chain_zero_branches_cex :
    ((run_chain ⟨fun _ => false, fun _ => false⟩ IfKind.If 0 [] none
        ⟨[], [], 0⟩).1.count true) ≠ 1 := by
  decide

/-- C1 (amended): over the lifetime of a conditional chain driven through
`get_if`, `get_elif` and optionally `get_else` with the enclosing state
emitting, at most one branch transitions the chain's stack entry into
`Eval`; and exactly one does whenever the chain carries an `#else` branch. -/
theorem chain_emits_at_most_one (o : PPOracle) (kind : IfKind) (ifPos : Nat)
    (elifs : List Nat) (elsePos : Option Nat) (st : PPState)
    (h : outerEval st.stack) :
    (run_chain o kind ifPos elifs elsePos st).1.count true ≤ 1 ∧
    (elsePos.isSome = true →
      (run_chain o kind ifPos elifs elsePos st).1.count true = 1) := by
  have h0 := get_if_inv o kind ifPos st h
  have h1 := run_elifs_inv o elifs st.stack h _ _ h0
  cases elsePos with
  | none =>
    obtain ⟨top, _, hc⟩ := h1
    constructor
    · show (run_elifs o elifs (get_if o kind ifPos st).2
          [(get_if o kind ifPos st).1]).1.count true ≤ 1
      rcases hc with ⟨hz, _⟩ | ⟨hz, _⟩ <;> omega
    · intro habs; simp at habs
  | some p =>
    obtain ⟨b, st2, heq, hcount⟩ := get_else_inv p st.stack _ _ h1
    constructor
    · show ((run_chain o kind ifPos elifs (some p) st).1.count true) ≤ 1
      simp only [run_chain, heq]
      omega
    · intro _
      show ((run_chain o kind ifPos elifs (some p) st).1.count true) = 1
      simp only [run_chain, heq]
      exact hcount

/-- Witness for the amended C1 at a concrete chain (`#if` false, one `#elif`,
an `#else`) starting in the outer scope. -/
theorem chain_emits_at_most_one_witness :
    (run_chain ⟨fun _ => false, fun _ => false⟩ IfKind.If 0 [3] (some 5)
        ⟨[], [], 0⟩).1.count true ≤ 1 ∧
    (run_chain ⟨fun _ => false, fun _ => false⟩ IfKind.If 0 [3] (some 5)
        ⟨[], [], 0⟩).1.count true = 1 :=
  ⟨(chain_emits_at_most_one ⟨fun _ => false, fun _ => false⟩ IfKind.If 0 [3]
      (some 5) ⟨[], [], 0⟩ trivial).1,
   (chain_emits_at_most_one ⟨fun _ => false, fun _ => false⟩ IfKind.If 0 [3]
      (some 5) ⟨[], [], 0⟩ trivial).2 rfl⟩

/-! ## Micro-scanner tokens and `skip_spaces_or_hash` (claim C7) -/

/-- The macro tokens produced by the micro-scanner (`MacroToken` in the
source).  Identifier and raw-chunk payloads are byte slices of the input,
modelled as byte lists. -/
inductive MacroToken where
  | None (s : List Nat)
  | Id (s : List Nat)
  | Space
  | Stringify
  | WhiteStringify
  | Concat
  | Eom
  deriving DecidableEq, Repr

/-- `skip_spaces_or_hash`, over the bytes remaining after the cursor: skip
the run of space-kind bytes; at the first non-space byte, a non-`#` byte
yields `Space` without consuming it, `##` yields `Concat`, `#` followed by
any other byte yields `WhiteStringify`, and a `#` that is the last byte of
the buffer falls back into the scan loop, which then exhausts the buffer and
yields `Space`.  Only the returned token is modelled; the cursor movement
(including the trailing `skip_whites!` after `##`) does not affect it. -/
def skip_spaces_or_hash : List Nat → MacroToken
  | [] => .Space
  | c :: rest =>
    if ppkind c ≠ Kind.SPA then
      if c ≠ 35 then .Space
      else match rest with
        | [] => .Space
        | c2 :: _ => if c2 = 35 then .Concat else .WhiteStringify
    else skip_spaces_or_hash rest

/-- The `Kind::SPA` entry of `next_macro_token` (lines 351-354): consume the
space byte under the cursor and delegate to `skip_spaces_or_hash`.  `none`
models starting on a byte that is not of kind `Space` (other entries of the
scanner, not embedded here). -/
def next_macro_token_spa (buf : List Nat) : Option MacroToken :=
  match buf with
  | [] => none
  | c :: rest =>
    if ppkind c = Kind.SPA then some (skip_spaces_or_hash rest) else none

/-- Unfolding equation of `skip_spaces_or_hash` on a non-empty buffer. -/
theorem skip_spaces_or_hash_cons (c : Nat) (rest : List Nat) :
    skip_spaces_or_hash (c :: rest) =
      if ppkind c ≠ Kind.SPA then
        if c ≠ 35 then .Space
        else match rest with
          | [] => .Space
          | c2 :: _ => if c2 = 35 then .Concat else .WhiteStringify
      else skip_spaces_or_hash rest := rfl

/-- Behaviour of `skip_spaces_or_hash` on a run of spaces followed by a
non-space remainder. -/
theorem skip_spaces_or_hash_spec (sp rest : List Nat)
    (hsp : ∀ b ∈ sp, ppkind b = Kind.SPA)
    (hrest : rest = [] ∨ ∃ b tl, rest = b :: tl ∧ ppkind b ≠ Kind.SPA) :
    skip_spaces_or_hash (sp ++ rest) =
      match rest with
      | [] => MacroToken.Space
      | b :: tl =>
        if b = 35 then
          match tl with
          | [] => MacroToken.Space
          | c2 :: _ =>
              if c2 = 35 then MacroToken.Concat else MacroToken.WhiteStringify
        else MacroToken.Space := by
  induction sp with
  | nil =>
    rcases hrest with rfl | ⟨b, tl, rfl, hb'⟩
    · rfl
    · rw [List.nil_append, skip_spaces_or_hash_cons, if_pos hb']
      by_cases hb : b = 35
      · subst hb
        rw [if_neg (by simp)]
        cases tl with
        | nil => rfl
        | cons c2 tl2 => rfl
      · rw [if_pos hb]
        exact (if_neg hb).symm
  | cons s sp ih =>
    have hs : ppkind s = Kind.SPA := hsp s (by simp)
    rw [List.cons_append, skip_spaces_or_hash_cons, if_neg (by simp [hs])]
    exact ih (fun b hb => hsp b (by simp [hb]))

/-- C7 (counterexample): on the buffer consisting of a space followed by a
lone final `#`, `next_macro_token` starting on the space returns `Space`,
not `WhiteStringify` as the claim requires for a trailing lone `#`. -/
theorem next_macro_token_spa_lone_hash_cex :
    next_macro_token_spa [32, 35] = some MacroToken.Space ∧
    some MacroToken.Space ≠ some MacroToken.WhiteStringify := by
  decide

/-- C7 (amended): when `next_macro_token` starts on a byte of kind `Space`,
it skips the run of consecutive space bytes and then: if the run is followed
by `##` it returns `Concat`; if it is followed by a lone `#` that is not the
last byte of the buffer it returns `WhiteStringify`; in every other case —
plain whitespace, or a `#` that ends the buffer — it returns `Space`. -/
theorem next_macro_token_spa_spec (c : Nat) (sp rest : List Nat)
    (hc : ppkind c = Kind.SPA)
    (hsp : ∀ b ∈ sp, ppkind b = Kind.SPA)
    (hrest : rest = [] ∨ ∃ b tl, rest = b :: tl ∧ ppkind b ≠ Kind.SPA) :
    next_macro_token_spa (c :: (sp ++ rest)) =
      some (match rest with
            | [] => MacroToken.Space
            | b :: tl =>
              if b = 35 then
                match tl with
                | [] => MacroToken.Space
                | c2 :: _ =>
                    if c2 = 35 then MacroToken.Concat
                    else MacroToken.WhiteStringify
              else MacroToken.Space) := by
  simp only [next_macro_token_spa, hc, if_true]
  rw [skip_spaces_or_hash_spec sp rest hsp hrest]

/-- Witness for the amended C7: a space, two more space-kind bytes, then `#`
and a letter yields `WhiteStringify`. -/
theorem next_macro_token_spa_spec_witness :
    next_macro_token_spa (32 :: ([32, 9] ++ [35, 102])) =
      some MacroToken.WhiteStringify := by
  have h := next_macro_token_spa_spec 32 [32, 9] [35, 102] (by decide)
    (by decide) (Or.inr ⟨35, [102], rfl, by decide⟩)
  simpa using h

/-! ## Macro definition builder (claims C5, C6) -/

/-- Body-template actions (`Action` in `macros.rs`; renamed `PPAction` here
because Mathlib already owns the name `Action`): `Chunk n` emits the body
bytes up to offset `n`, the others substitute the argument at the carried
index. -/
inductive PPAction where
  | Chunk (n : Nat)
  | Arg (n : Nat)
  | Concat (n : Nat)
  | Stringify (n : Nat)
  deriving DecidableEq, Repr

/-- The `last_kind` state of the definition builder (`LastKind` in the
source). -/
inductive LastKind where
  | None
  | Arg (n : Nat)
  | Concat
  | Id
  | Space
  deriving DecidableEq, Repr

/-- One event consumed by the loop of `get_function_definition`: the
`MacroToken` returned by `next_macro_token`, with each `Stringify` /
`WhiteStringify` token paired with the identifier read immediately after it
by `get_preproc_identifier` (the source reads it from the byte cursor inside
the same loop iteration).  End of the event list models `Eom`. -/
inductive BodyEvent where
  | None (s : List Nat)
  | Id (s : List Nat)
  | Space
  | Stringify (id : List Nat)
  | WhiteStringify (id : List Nat)
  | Concat
  deriving DecidableEq, Repr

/-- The mutable state of the `get_function_definition` loop: the body byte
buffer `out`, the ordered action list, `last_kind`, and the end offset of the
most recently recorded chunk. -/
structure FnDefState where
  out : List Nat
  actions : List PPAction
  last_kind : LastKind
  last_chunk_end : Nat
  deriving DecidableEq, Repr

/-- The argument-lookup part of the `WhiteStringify | Stringify` arm of the
builder loop, applied after the optional leading space has been emitted:
on an argument name, append two quote bytes, record a `Chunk` up to between
them when needed, and push `Stringify`; otherwise append `#` and the
identifier; in all cases set `last_kind` to `None`. -/
def fd_stringify_core (args : List (List Nat × Nat)) (st0 : FnDefState)
    (id : List Nat) : FnDefState :=
  let st1 :=
    match args.lookup id with
    | some n =>
      let stq := { st0 with out := st0.out ++ [34, 34] }
      let stc :=
        if stq.last_chunk_end ≠ stq.out.length - 1 then
          { stq with
            actions := stq.actions ++ [PPAction.Chunk (stq.out.length - 1)],
            last_chunk_end := stq.out.length - 1 }
        else stq
      { stc with actions := stc.actions ++ [PPAction.Stringify n] }
    | none => { st0 with out := st0.out ++ [35] ++ id }
  { st1 with last_kind := .None }

/-- The `WhiteStringify | Stringify` arm of the builder loop: `white` records
whether the token was `WhiteStringify` (the source tests
`tok == MacroToken::WhiteStringify`), which emits a leading space unless one
was just emitted. -/
def fd_stringify (args : List (List Nat × Nat)) (st : FnDefState)
    (white : Bool) (id : List Nat) : FnDefState :=
  let st0 :=
    if white ∧ st.last_kind ≠ LastKind.Space then
      { st with out := st.out ++ [32] }
    else st
  fd_stringify_core args st0 id

/-- One iteration of the `get_function_definition` loop, transcribed
case-by-case from the source `match` on the incoming token.  `args` is the
argument-name table (name bytes to position). -/
def fd_step (args : List (List Nat × Nat)) (st : FnDefState)
    (tok : BodyEvent) : FnDefState :=
  match tok with
  | .None s => { st with out := st.out ++ s, last_kind := .None }
  | .Id id =>
    match args.lookup id with
    | some n =>
      let st1 :=
        if st.last_chunk_end ≠ st.out.length then
          { st with actions := st.actions ++ [PPAction.Chunk st.out.length],
                    last_chunk_end := st.out.length }
        else st
      let st2 :=
        match st1.last_kind with
        | .Concat => { st1 with actions := st1.actions ++ [PPAction.Concat n] }
        | _ => { st1 with actions := st1.actions ++ [PPAction.Arg n] }
      { st2 with last_kind := .Arg n }
    | none => { st with out := st.out ++ id, last_kind := .None }
  | .Space =>
    if st.last_kind ≠ LastKind.Space then
      { st with out := st.out ++ [32], last_kind := .Space }
    else st
  | .Stringify id => fd_stringify args st false id
  | .WhiteStringify id => fd_stringify args st true id
  | .Concat =>
    let st1 :=
      match st.last_kind with
      | .Arg n =>
          { st with actions := st.actions.dropLast ++ [PPAction.Concat n] }
      | _ => st
    { st1 with last_kind := .Concat }

/-- A function-like macro definition (`MacroFunction`): the literal body
bytes and the ordered substitution actions, with the arity and optional
variadic index.  The `FileInfo` origin (defined outside the studied file)
carries no information the claims touch and is not modelled. -/
structure MacroFunction where
  out : List Nat
  actions : List PPAction
  n_args : Nat
  va_args : Option Nat
  deriving DecidableEq, Repr

/-- `get_function_definition`: run the loop from the fresh state over the
macro tokens of the body and package the result. -/
def get_function_definition (args : List (List Nat × Nat))
    (va_args : Option Nat) (toks : List BodyEvent) : MacroFunction :=
  let st := toks.foldl (fd_step args) ⟨[], [], .None, 0⟩
  ⟨st.out, st.actions, args.length, va_args⟩

/-- The end offsets carried by the `Chunk` actions of an action list, in
order. -/
def chunkEnds (acts : List PPAction) : List Nat :=
  acts.filterMap (fun a => match a with | .Chunk n => some n | _ => none)

/-- C6: on an incoming `Concat` token, the builder loop replaces the most
recently pushed action by `Concat(n)` when `last_kind` is `Arg(n)` (pop then
push), leaves the action list unchanged otherwise, and in all cases sets
`last_kind` to `Concat`. -/
theorem fd_step_concat_spec (args : List (List Nat × Nat)) (st : FnDefState) :
    fd_step args st BodyEvent.Concat =
      { st with
        actions :=
          match st.last_kind with
          | .Arg n => st.actions.dropLast ++ [PPAction.Concat n]
          | _ => st.actions,
        last_kind := .Concat } := by
  obtain ⟨o, a, lk, lce⟩ := st
  cases lk <;> rfl

/-- Appending actions distributes over `chunkEnds`. -/
theorem chunkEnds_append (l1 l2 : List PPAction) :
    chunkEnds (l1 ++ l2) = chunkEnds l1 ++ chunkEnds l2 :=
  List.filterMap_append l1 l2 _

/-- Pushing a `Chunk` records its offset. -/
theorem chunkEnds_push_chunk (l : List PPAction) (m : Nat) :
    chunkEnds (l ++ [PPAction.Chunk m]) = chunkEnds l ++ [m] := by
  rw [chunkEnds_append]; rfl

/-- Pushing any non-`Chunk` action leaves the chunk offsets unchanged. -/
theorem chunkEnds_push_arg (l : List PPAction) (n : Nat) :
    chunkEnds (l ++ [PPAction.Arg n]) = chunkEnds l := by
  rw [chunkEnds_append]; simp [chunkEnds]

theorem chunkEnds_push_concat (l : List PPAction) (n : Nat) :
    chunkEnds (l ++ [PPAction.Concat n]) = chunkEnds l := by
  rw [chunkEnds_append]; simp [chunkEnds]

theorem chunkEnds_push_stringify (l : List PPAction) (n : Nat) :
    chunkEnds (l ++ [PPAction.Stringify n]) = chunkEnds l := by
  rw [chunkEnds_append]; simp [chunkEnds]

/-- A strictly increasing offset list stays strictly increasing after
appending a strict upper bound. -/
theorem chain_push_lt (l : List Nat) (m : Nat)
    (hc : List.Chain' (· < ·) l) (hub : ∀ x ∈ l, x < m) :
    List.Chain' (· < ·) (l ++ [m]) := by
  rw [List.chain'_append]
  refine ⟨hc, List.chain'_singleton m, ?_⟩
  intro x hx y hy
  simp only [List.head?_cons, Option.mem_def, Option.some.injEq] at hy
  subst hy
  exact hub x (List.mem_of_mem_getLast? hx)

/-- Dropping a final non-`Chunk` action leaves the chunk offsets unchanged. -/
theorem chunkEnds_dropLast (l : List PPAction) (a : PPAction)
    (h : l.getLast? = some a) (ha : chunkEnds [a] = []) :
    chunkEnds l.dropLast = chunkEnds l := by
  conv_rhs => rw [← List.dropLast_append_getLast? a h]
  rw [chunkEnds_append, ha, List.append_nil]

/-- The builder invariant: chunk offsets are strictly increasing, all bounded
by `last_chunk_end`, which is bounded by the body length; and when
`last_kind` is `Arg(n)` the action list ends in `Arg n` or `Concat n`. -/
def FnInv (st : FnDefState) : Prop :=
  List.Chain' (· < ·) (chunkEnds st.actions) ∧
  (∀ n ∈ chunkEnds st.actions, n ≤ st.last_chunk_end) ∧
  st.last_chunk_end ≤ st.out.length ∧
  (∀ n, st.last_kind = LastKind.Arg n →
    st.actions.getLast? = some (PPAction.Arg n) ∨
    st.actions.getLast? = some (PPAction.Concat n))

/-- The lookup part of the stringify arm preserves the builder invariant. -/
theorem fd_stringify_core_inv (args : List (List Nat × Nat))
    (st0 : FnDefState) (id : List Nat)
    (hchain : List.Chain' (· < ·) (chunkEnds st0.actions))
    (hle : ∀ n ∈ chunkEnds st0.actions, n ≤ st0.last_chunk_end)
    (hlen : st0.last_chunk_end ≤ st0.out.length) :
    FnInv (fd_stringify_core args st0 id) := by
  obtain ⟨o, a, lk, lce⟩ := st0
  have hchain' : List.Chain' (· < ·) (chunkEnds a) := hchain
  have hle' : ∀ n ∈ chunkEnds a, n ≤ lce := hle
  have hlen' : lce ≤ o.length := hlen
  clear hchain hle hlen
  simp only [fd_stringify_core]
  cases hl : args.lookup id with
  | none =>
    simp only [hl]
    exact ⟨hchain', hle', le_trans hlen' (by simp),
      fun n hn => LastKind.noConfusion hn⟩
  | some n =>
    simp only [hl]
    by_cases hcc : lce = (o ++ [34, 34]).length - 1
    · rw [if_neg (not_not_intro hcc)]
      refine ⟨?_, ?_, ?_, fun n hn => LastKind.noConfusion hn⟩
      · rwa [chunkEnds_push_stringify]
      · rw [chunkEnds_push_stringify]; exact hle'
      · simp at hcc ⊢; omega
    · rw [if_pos hcc]
      refine ⟨?_, ?_, ?_, fun n hn => LastKind.noConfusion hn⟩
      · rw [chunkEnds_push_stringify, chunkEnds_push_chunk]
        refine chain_push_lt _ _ hchain' ?_
        intro x hx
        have := hle' x hx
        simp only [List.length_append, List.length_cons, List.length_nil]
        omega
      · rw [chunkEnds_push_stringify, chunkEnds_push_chunk]
        intro x hx
        have hxle : x ≤ (o ++ [34, 34]).length - 1 := by
          rcases List.mem_append.1 hx with hx | hx
          · have := hle' x hx
            simp only [List.length_append, List.length_cons, List.length_nil]
            omega
          · simp only [List.mem_singleton] at hx
            subst hx
            exact Nat.le_refl _
        exact hxle
      · simp
/-- The stringify arm preserves the builder invariant. -/
theorem fd_stringify_inv (args : List (List Nat × Nat)) (st : FnDefState)
    (white : Bool) (id : List Nat) (h : FnInv st) :
    FnInv (fd_stringify args st white id) := by
  obtain ⟨hchain, hle, hlen, _⟩ := h
  simp only [fd_stringify]
  by_cases hw : (white = true) ∧ st.last_kind ≠ LastKind.Space
  · rw [if_pos hw]
    exact fd_stringify_core_inv args _ id hchain hle (le_trans hlen (by simp))
  · rw [if_neg hw]
    exact fd_stringify_core_inv args _ id hchain hle hlen

/-- Every iteration of the builder loop preserves the invariant. -/
theorem fd_inv_step (args : List (List Nat × Nat)) (st : FnDefState)
    (tok : BodyEvent) (h : FnInv st) : FnInv (fd_step args st tok) := by
  cases tok with
  | Stringify id => exact fd_stringify_inv args st false id h
  | WhiteStringify id => exact fd_stringify_inv args st true id h
  | None s =>
    obtain ⟨o, a, lk, lce⟩ := st
    obtain ⟨hchain, hle, hlen, _⟩ := h
    exact ⟨hchain, hle, le_trans hlen (by simp [fd_step]),
      fun n hn => LastKind.noConfusion hn⟩
  | Space =>
    obtain ⟨o, a, lk, lce⟩ := st
    obtain ⟨hchain, hle, hlen, hlast⟩ := h
    simp only [fd_step]
    by_cases hsp : lk ≠ LastKind.Space
    · rw [if_pos hsp]
      exact ⟨hchain, hle, le_trans hlen (by simp),
        fun n hn => LastKind.noConfusion hn⟩
    · rw [if_neg hsp]
      exact ⟨hchain, hle, hlen, hlast⟩
  | Concat =>
    obtain ⟨o, a, lk, lce⟩ := st
    obtain ⟨hchain, hle, hlen, hlast⟩ := h
    simp only [fd_step]
    cases lk with
    | Arg n =>
      have hg := hlast n rfl
      have hce : chunkEnds a.dropLast = chunkEnds a := by
        rcases hg with hg | hg
        · exact chunkEnds_dropLast a _ hg rfl
        · exact chunkEnds_dropLast a _ hg rfl
      refine ⟨?_, ?_, hlen, fun n hn => LastKind.noConfusion hn⟩
      · rw [chunkEnds_push_concat, hce]; exact hchain
      · rw [chunkEnds_push_concat, hce]; exact hle
    | None => exact ⟨hchain, hle, hlen, fun n hn => LastKind.noConfusion hn⟩
    | Concat => exact ⟨hchain, hle, hlen, fun n hn => LastKind.noConfusion hn⟩
    | Id => exact ⟨hchain, hle, hlen, fun n hn => LastKind.noConfusion hn⟩
    | Space => exact ⟨hchain, hle, hlen, fun n hn => LastKind.noConfusion hn⟩
  | Id id =>
    obtain ⟨o, a, lk, lce⟩ := st
    obtain ⟨hchain, hle, hlen, _⟩ := h
    have hle' : ∀ n ∈ chunkEnds a, n ≤ lce := hle
    have hlen' : lce ≤ o.length := hlen
    simp only [fd_step]
    cases hl : args.lookup id with
    | none =>
      simp only [hl]
      exact ⟨hchain, hle, le_trans hlen (by simp),
        fun n hn => LastKind.noConfusion hn⟩
    | some n =>
      simp only [hl]
      by_cases hne : lce = o.length
      · rw [if_neg (not_not_intro hne)]
        cases lk with
        | Concat =>
          refine ⟨?_, ?_, hlen, ?_⟩
          · rw [chunkEnds_push_concat]; exact hchain
          · rw [chunkEnds_push_concat]; exact hle
          · intro m hm
            right
            have : m = n := by cases hm; rfl
            subst this
            exact List.getLast?_concat a
        | None =>
          refine ⟨?_, ?_, hlen, ?_⟩
          · rw [chunkEnds_push_arg]; exact hchain
          · rw [chunkEnds_push_arg]; exact hle
          · intro m hm
            left
            have : m = n := by cases hm; rfl
            subst this
            exact List.getLast?_concat a
        | Id =>
          refine ⟨?_, ?_, hlen, ?_⟩
          · rw [chunkEnds_push_arg]; exact hchain
          · rw [chunkEnds_push_arg]; exact hle
          · intro m hm
            left
            have : m = n := by cases hm; rfl
            subst this
            exact List.getLast?_concat a
        | Space =>
          refine ⟨?_, ?_, hlen, ?_⟩
          · rw [chunkEnds_push_arg]; exact hchain
          · rw [chunkEnds_push_arg]; exact hle
          · intro m hm
            left
            have : m = n := by cases hm; rfl
            subst this
            exact List.getLast?_concat a
        | Arg k =>
          refine ⟨?_, ?_, hlen, ?_⟩
          · rw [chunkEnds_push_arg]; exact hchain
          · rw [chunkEnds_push_arg]; exact hle
          · intro m hm
            left
            have : m = n := by cases hm; rfl
            subst this
            exact List.getLast?_concat a
      · rw [if_pos hne]
        have hchain2 : List.Chain' (· < ·) (chunkEnds (a ++ [PPAction.Chunk o.length])) := by
          rw [chunkEnds_push_chunk]
          refine chain_push_lt _ _ hchain ?_
          intro x hx
          have := hle' x hx
          omega
        have hle2 : ∀ x ∈ chunkEnds (a ++ [PPAction.Chunk o.length]),
            x ≤ o.length := by
          rw [chunkEnds_push_chunk]
          intro x hx
          rcases List.mem_append.1 hx with hx | hx
          · have := hle' x hx; omega
          · simp only [List.mem_singleton] at hx; omega
        cases lk with
        | Concat =>
          refine ⟨?_, ?_, Nat.le_refl _, ?_⟩
          · rw [chunkEnds_push_concat]; exact hchain2
          · rw [chunkEnds_push_concat]; exact hle2
          · intro m hm
            right
            have : m = n := by cases hm; rfl
            subst this
            exact List.getLast?_concat _
        | None =>
          refine ⟨?_, ?_, Nat.le_refl _, ?_⟩
          · rw [chunkEnds_push_arg]; exact hchain2
          · rw [chunkEnds_push_arg]; exact hle2
          · intro m hm
            left
            have : m = n := by cases hm; rfl
            subst this
            exact List.getLast?_concat _
        | Id =>
          refine ⟨?_, ?_, Nat.le_refl _, ?_⟩
          · rw [chunkEnds_push_arg]; exact hchain2
          · rw [chunkEnds_push_arg]; exact hle2
          · intro m hm
            left
            have : m = n := by cases hm; rfl
            subst this
            exact List.getLast?_concat _
        | Space =>
          refine ⟨?_, ?_, Nat.le_refl _, ?_⟩
          · rw [chunkEnds_push_arg]; exact hchain2
          · rw [chunkEnds_push_arg]; exact hle2
          · intro m hm
            left
            have : m = n := by cases hm; rfl
            subst this
            exact List.getLast?_concat _
        | Arg k =>
          refine ⟨?_, ?_, Nat.le_refl _, ?_⟩
          · rw [chunkEnds_push_arg]; exact hchain2
          · rw [chunkEnds_push_arg]; exact hle2
          · intro m hm
            left
            have : m = n := by cases hm; rfl
            subst this
            exact List.getLast?_concat _

/-- The builder invariant is preserved by the whole loop. -/
theorem fd_inv_foldl (args : List (List Nat × Nat)) (toks : List BodyEvent) :
    ∀ st : FnDefState, FnInv st → FnInv (toks.foldl (fd_step args) st) := by
  induction toks with
  | nil => intro st h; exact h
  | cons t ts ih =>
    intro st h
    exact ih (fd_step args st t) (fd_inv_step args st t h)

/-- C5: in every `MacroFunction` produced by `get_function_definition`, the
end offsets of successive `Chunk` actions are strictly increasing and each
is at most the length of the body buffer (the buffer only grows after a
chunk is recorded, so the offset also bounds the buffer at push time, and
the implicit final chunk emits exactly the bytes past the last offset). -/
theorem get_function_definition_chunks (args : List (List Nat × Nat))
    (va_args : Option Nat) (toks : List BodyEvent) :
    List.Chain' (· < ·)
      (chunkEnds (get_function_definition args va_args toks).actions) ∧
    ∀ n ∈ chunkEnds (get_function_definition args va_args toks).actions,
      n ≤ (get_function_definition args va_args toks).out.length := by
  have hinit : FnInv ⟨[], [], .None, 0⟩ := by
    refine ⟨?_, ?_, ?_, ?_⟩
    · simp [chunkEnds]
    · intro n hn; simp [chunkEnds] at hn
    · exact Nat.le_refl 0
    · intro n hn; exact LastKind.noConfusion hn
  have h := fd_inv_foldl args toks ⟨[], [], .None, 0⟩ hinit
  obtain ⟨h1, h2, h3, _⟩ := h
  exact ⟨h1, fun n hn => le_trans (h2 n hn) h3⟩

/-! ## Byte cursor helpers -/

/-- The byte under the cursor (`buf.next_char()`); out-of-range reads give 0
(never taken by the embedded routines on the paths the theorems cover). -/
def byteAt (buf : List Nat) (pos : Nat) : Nat := buf.getD pos 0

/-- Fuel-driven loop of `skip_whites`: advance while the byte under the
cursor classifies as `Space` (horizontal tab or space). -/
def skip_whites_go (buf : List Nat) : Nat → Nat → Nat
  | 0, pos => pos
  | fuel + 1, pos =>
    if pos < buf.length ∧ ppkind (byteAt buf pos) = Kind.SPA then
      skip_whites_go buf fuel (pos + 1)
    else pos

/-- Modelled from the spec: the `skip_whites!` macro (defined outside the
studied file) advances the cursor past the run of whitespace bytes. The fuel
`buf.length - pos` bounds the loop exactly. -/
def skip_whites (buf : List Nat) (pos : Nat) : Nat :=
  skip_whites_go buf (buf.length - pos) pos

/-- Fuel-driven loop of `skip_until`: advance while the byte under the
cursor differs from the target, stopping on the target without consuming
it. -/
def skip_until_go (buf : List Nat) (target : Nat) : Nat → Nat → Nat
  | 0, pos => pos
  | fuel + 1, pos =>
    if pos < buf.length ∧ byteAt buf pos ≠ target then
      skip_until_go buf target fuel (pos + 1)
    else pos

/-- Modelled from the spec: the `skip_until!` macro leaves the cursor on the
first occurrence of the target byte (or at end of buffer). -/
def skip_until (buf : List Nat) (target : Nat) (pos : Nat) : Nat :=
  skip_until_go buf target (buf.length - pos) pos

/-- `self.buf.slice(spos)` with the cursor at `b`: the bytes of `buf` in
`[a, b)` (named `bufSlice` because `slice` is taken by core syntax). -/
def bufSlice (buf : List Nat) (a b : Nat) : List Nat :=
  (buf.drop a).take (b - a)

/-- A one-byte read behind a prefix. -/
theorem byteAt_append (pre : List Nat) (b : Nat) (tl : List Nat) :
    byteAt (pre ++ b :: tl) pre.length = b := by
  induction pre with
  | nil => rfl
  | cons x xs ih => simpa [byteAt, List.getD] using ih

/-- `skip_whites` takes one step over a space-kind byte. -/
theorem skip_whites_step (buf : List Nat) (p : Nat) (hp : p < buf.length)
    (hs : ppkind (byteAt buf p) = Kind.SPA) :
    skip_whites buf p = skip_whites buf (p + 1) := by
  unfold skip_whites
  obtain ⟨k, hk⟩ : ∃ k, buf.length - p = k + 1 := ⟨buf.length - (p + 1), by omega⟩
  rw [hk]
  have h2 : buf.length - (p + 1) = k := by omega
  rw [h2]
  simp [skip_whites_go, hp, hs]

/-- `skip_whites` stops on a non-space byte (or at end of buffer). -/
theorem skip_whites_stop (buf : List Nat) (p : Nat)
    (h : ¬(p < buf.length ∧ ppkind (byteAt buf p) = Kind.SPA)) :
    skip_whites buf p = p := by
  unfold skip_whites
  cases hk : buf.length - p with
  | zero => rfl
  | succ k => simp only [skip_whites_go, if_neg h]

/-- `skip_until` takes one step over a non-target byte. -/
theorem skip_until_step (buf : List Nat) (t p : Nat) (hp : p < buf.length)
    (hs : byteAt buf p ≠ t) :
    skip_until buf t p = skip_until buf t (p + 1) := by
  unfold skip_until
  obtain ⟨k, hk⟩ : ∃ k, buf.length - p = k + 1 := ⟨buf.length - (p + 1), by omega⟩
  rw [hk]
  have h2 : buf.length - (p + 1) = k := by omega
  rw [h2]
  simp [skip_until_go, hp, hs]

/-- `skip_until` stops on the target byte (or at end of buffer). -/
theorem skip_until_stop (buf : List Nat) (t p : Nat)
    (h : ¬(p < buf.length ∧ byteAt buf p ≠ t)) :
    skip_until buf t p = p := by
  unfold skip_until
  cases hk : buf.length - p with
  | zero => rfl
  | succ k => simp only [skip_until_go, if_neg h]

/-- `skip_whites` runs exactly over a run of space-kind bytes. -/
theorem skip_whites_run (pre ws tail : List Nat)
    (hws : ∀ b ∈ ws, ppkind b = Kind.SPA)
    (htail : tail = [] ∨ ∃ b tl, tail = b :: tl ∧ ppkind b ≠ Kind.SPA) :
    skip_whites (pre ++ ws ++ tail) pre.length = pre.length + ws.length := by
  induction ws generalizing pre with
  | nil =>
    simp only [List.append_nil, List.nil_append, List.length_nil,
      Nat.add_zero]
    rcases htail with rfl | ⟨b, tl, rfl, hb⟩
    · rw [List.append_nil, skip_whites_stop]
      intro ⟨h1, _⟩; omega
    · rw [skip_whites_stop]
      rw [byteAt_append]
      intro ⟨_, h2⟩; exact hb h2
  | cons w ws ih =>
    have hw : ppkind w = Kind.SPA := hws w (by simp)
    rw [List.append_assoc, List.cons_append]
    have hlen : pre.length < (pre ++ (w :: (ws ++ tail))).length := by
      simp
    rw [skip_whites_step _ _ hlen (by rw [byteAt_append]; exact hw)]
    have hre : pre ++ w :: (ws ++ tail) = (pre ++ [w]) ++ ws ++ tail := by
      simp
    rw [hre]
    have hl1 : pre.length + 1 = (pre ++ [w]).length := by simp
    rw [hl1, ih (pre ++ [w]) (fun b hb => hws b (by simp [hb]))]
    simp
    omega

/-- `skip_until` on the newline byte runs exactly over a newline-free run. -/
theorem skip_until_nl_run (pre msg rest : List Nat)
    (hmsg : ∀ b ∈ msg, b ≠ 10) :
    skip_until (pre ++ msg ++ 10 :: rest) 10 pre.length =
      pre.length + msg.length := by
  induction msg generalizing pre with
  | nil =>
    simp only [List.append_nil, List.nil_append, List.length_nil,
      Nat.add_zero]
    rw [skip_until_stop]
    rw [byteAt_append]
    intro ⟨_, h2⟩; exact h2 rfl
  | cons m msg ih =>
    have hm : m ≠ 10 := hmsg m (by simp)
    rw [List.append_assoc, List.cons_append]
    have hlen : pre.length < (pre ++ (m :: (msg ++ 10 :: rest))).length := by
      simp
    rw [skip_until_step _ _ _ hlen (by rw [byteAt_append]; exact hm)]
    have hre : pre ++ m :: (msg ++ 10 :: rest) =
        (pre ++ [m]) ++ msg ++ 10 :: rest := by
      simp
    rw [hre]
    have hl1 : pre.length + 1 = (pre ++ [m]).length := by simp
    rw [hl1, ih (pre ++ [m]) (fun b hb => hmsg b (by simp [hb]))]
    simp
    omega

/-- The slice between a prefix boundary and the following run is that run. -/
theorem bufSlice_middle (pre msg tail : List Nat) :
    bufSlice (pre ++ msg ++ tail) pre.length (pre.length + msg.length) =
      msg := by
  unfold bufSlice
  rw [List.append_assoc, List.drop_left, Nat.add_sub_cancel_left]
  exact List.take_left msg tail

/-! ## The `#error` directive (claim C8) -/

/-- The `Token::PreprocError` arm of `preproc_parse`: with the cursor right
after the `#error` keyword, skip the leading whitespace (the `skip_whites!`
at the top of `preproc_parse`), record the start, skip to the newline, and
return the `ErrorDirective` error carrying the captured slice.  `tokStart` is
the byte offset where the directive token begins; modelled from the spec,
`self.span()` (defined outside the studied file) covers the directive from
`tokStart` to the cursor, which sits on the newline. -/
def preproc_error (buf : List Nat) (tokStart cur : Nat) : LexerError :=
  let p1 := skip_whites buf cur
  let p2 := skip_until buf 10 p1
  LexerError.ErrorDirective (tokStart, p2) (bufSlice buf p1 p2)

/-- C8: on a `#error` directive, the bytes from after the leading whitespace
up to the newline are captured as the message of the returned
`ErrorDirective`, whose span runs from the directive start to the newline
offset. -/
theorem preproc_error_spec (pre ws msg rest : List Nat) (tokStart : Nat)
    (hws : ∀ b ∈ ws, ppkind b = Kind.SPA)
    (hmsg_nl : ∀ b ∈ msg, b ≠ 10)
    (hmsg_head : msg = [] ∨ ∃ m tl, msg = m :: tl ∧ ppkind m ≠ Kind.SPA) :
    preproc_error (pre ++ ws ++ msg ++ 10 :: rest) tokStart pre.length =
      LexerError.ErrorDirective (tokStart, pre.length + ws.length + msg.length)
        msg := by
  have htail : msg ++ 10 :: rest = [] ∨
      ∃ b tl, msg ++ 10 :: rest = b :: tl ∧ ppkind b ≠ Kind.SPA := by
    rcases hmsg_head with rfl | ⟨m, tl, rfl, hm⟩
    · exact Or.inr ⟨10, rest, by simp, by decide⟩
    · exact Or.inr ⟨m, tl ++ 10 :: rest, by simp, hm⟩
  have h1 : skip_whites (pre ++ ws ++ msg ++ 10 :: rest) pre.length =
      pre.length + ws.length := by
    have := skip_whites_run pre ws (msg ++ 10 :: rest) hws htail
    simp only [List.append_assoc] at this ⊢
    exact this
  have h2 : skip_until (pre ++ ws ++ msg ++ 10 :: rest) 10
      (pre.length + ws.length) = pre.length + ws.length + msg.length := by
    have := skip_until_nl_run (pre ++ ws) msg rest hmsg_nl
    simp only [List.append_assoc, List.length_append] at this ⊢
    exact this
  have h3 : bufSlice (pre ++ ws ++ msg ++ 10 :: rest)
      (pre.length + ws.length) (pre.length + ws.length + msg.length) =
      msg := by
    have := bufSlice_middle (pre ++ ws) msg (10 :: rest)
    simp only [List.append_assoc, List.length_append] at this ⊢
    exact this
  simp only [preproc_error, h1, h2, h3]

/-- Witness for C8 at the seed input `"#error foo\n"`: the message is `foo`
(bytes `102 111 111`) and the span covers bytes 0..10. -/
theorem preproc_error_spec_witness :
    preproc_error [35, 101, 114, 114, 111, 114, 32, 102, 111, 111, 10] 0 6 =
      LexerError.ErrorDirective (0, 10) [102, 111, 111] := by
  have h := preproc_error_spec [35, 101, 114, 114, 111, 114] [32]
    [102, 111, 111] [] 0 (by decide) (by decide)
    (Or.inr ⟨102, [111, 111], rfl, by decide⟩)
  simpa using h

/-! ## `#define` with an exhausted buffer (claim C9) -/

/-- Fuel-driven loop of `get_preproc_identifier`: advance while the byte
kind is at most `NUM` (identifier starts, string-prefix letters and digits),
mirroring the source's `kind > Kind::NUM` break on the derived `PartialOrd`
order. -/
def gpi_go (buf : List Nat) : Nat → Nat → Nat
  | 0, pos => pos
  | fuel + 1, pos =>
    if pos < buf.length ∧ (ppkind (byteAt buf pos)).val ≤ 5 then
      gpi_go buf fuel (pos + 1)
    else pos

/-- `get_preproc_identifier`: the identifier slice starting at the cursor
and the cursor position after it. -/
def get_preproc_identifier (buf : List Nat) (pos : Nat) : List Nat × Nat :=
  let e := gpi_go buf (buf.length - pos) pos
  (bufSlice buf pos e, e)

/-- The macro store entries (`Macro` in `macros.rs`) reachable from
`get_define`: object-like and function-like definitions (the dynamic
built-ins are never added by `get_define`). -/
inductive Macro where
  | Object (body : List Nat) (has_id : Bool)
  | Function (f : MacroFunction)
  deriving DecidableEq, Repr

/-- Modelled from the spec: `context.add_object` / `add_function` (in
`context.rs`, outside `src/`) insert the definition under the name; lookup
(`context.get`) returns the most recent entry. -/
def MacroStore := List (List Nat × Macro)

/-- `get_define`, with its collaborators passed as functions: with the
cursor after the `#define` keyword, skip whitespace and read the macro name;
if the buffer still has a byte, build and record a function-like macro on
`(` (argument table, then body) or an object-like macro otherwise; if the
buffer is exhausted right after the name, fall through and record nothing.
`get_macro_arguments` returns the argument table, the variadic index and the
cursor after the closing parenthesis; `function_body` and `object_body`
stand for `get_function_definition` / `get_object_definition` driven from a
given cursor position (their token streams live on the byte cursor). -/
def get_define (buf : List Nat) (pos : Nat) (store : MacroStore)
    (get_macro_arguments :
      Nat → (List (List Nat × Nat) × Option Nat) × Nat)
    (function_body : List (List Nat × Nat) → Option Nat → Nat → MacroFunction)
    (object_body : Nat → List Nat × Bool) : MacroStore :=
  let p1 := skip_whites buf pos
  let r := get_preproc_identifier buf p1
  if r.2 < buf.length then
    if byteAt buf r.2 = 40 then
      let ra := get_macro_arguments (r.2 + 1)
      let p3 := skip_whites buf ra.2
      let mac := function_body ra.1.1 ra.1.2 p3
      (r.1, Macro.Function mac) :: store
    else
      let p3 := skip_whites buf r.2
      let ro := object_body p3
      (r.1, Macro.Object ro.1 ro.2) :: store
  else store

/-- C9: when the buffer is exhausted immediately after the macro name,
`get_define` records nothing: the store is unchanged, and a name not defined
before is still undefined afterwards. -/
theorem get_define_exhausted (buf : List Nat) (pos : Nat) (store : MacroStore)
    (gma : Nat → (List (List Nat × Nat) × Option Nat) × Nat)
    (fb : List (List Nat × Nat) → Option Nat → Nat → MacroFunction)
    (ob : Nat → List Nat × Bool)
    (hend : buf.length ≤
      (get_preproc_identifier buf (skip_whites buf pos)).2) :
    get_define buf pos store gma fb ob = store ∧
    ∀ name : List Nat, List.lookup name store = none →
      List.lookup name (get_define buf pos store gma fb ob) = none := by
  have heq : get_define buf pos store gma fb ob = store := by
    simp only [get_define]
    rw [if_neg (by omega)]
  exact ⟨heq, fun name h => by rw [heq]; exact h⟩

/-- Witness for C9 at the buffer `"#define FOO"` (cursor after the keyword,
empty store): the identifier ends exactly at the end of the buffer and the
store stays empty. -/
theorem get_define_exhausted_witness :
    get_define [35, 100, 101, 102, 105, 110, 101, 32, 70, 79, 79] 7
        ([] : MacroStore) (fun p => (([], none), p))
        (fun _ _ _ => ⟨[], [], 0, none⟩) (fun _ => ([], false)) =
      ([] : MacroStore) ∧
    List.lookup [70, 79, 79]
        (get_define [35, 100, 101, 102, 105, 110, 101, 32, 70, 79, 79] 7
          ([] : MacroStore) (fun p => (([], none), p))
          (fun _ _ _ => ⟨[], [], 0, none⟩) (fun _ => ([], false))) = none :=
  ⟨(get_define_exhausted _ 7 _ _ _ _ (by decide)).1,
   (get_define_exhausted _ 7 _ _ _ _ (by decide)).2 [70, 79, 79] rfl⟩

/-! ## Skipping to the next branch directive (claim C10) -/

/-- Modelled from the spec: `skip_single_comment` (outside the studied file)
consumes a `//` comment, leaving the cursor on the terminating newline. -/
def skip_single_comment (buf : List Nat) (pos : Nat) : Nat :=
  skip_until buf 10 pos

/-- Fuel-driven scan for the closing `*/` of a block comment. -/
def smc_go (buf : List Nat) : Nat → Nat → Nat
  | 0, pos => pos
  | fuel + 1, pos =>
    if pos < buf.length then
      if byteAt buf pos = 42 ∧ byteAt buf (pos + 1) = 47 then pos + 2
      else smc_go buf fuel (pos + 1)
    else pos

/-- Modelled from the spec: `skip_multiline_comment` leaves the cursor
immediately after the closing `*/` (or at end of buffer). -/
def skip_multiline_comment (buf : List Nat) (pos : Nat) : Nat :=
  smc_go buf (buf.length - pos) pos

/-- `skip_slash_or_not`: after a `/`, consume a line comment on `/`, a block
comment on `*`, and otherwise report that the slash stands for itself
(returns true).  The returned position is the cursor afterwards. -/
def skip_slash_or_not (buf : List Nat) (pos : Nat) : Bool × Nat :=
  if pos < buf.length then
    let c := byteAt buf pos
    if c = 47 then (false, skip_single_comment buf (pos + 1))
    else if c = 42 then (false, skip_multiline_comment buf (pos + 1))
    else (true, pos)
  else (true, pos)

/-- Fuel-driven scan to the closing delimiter of a string or character
literal, skipping backslash escapes. -/
def sbd_go (buf : List Nat) (delim : Nat) : Nat → Nat → Nat
  | 0, pos => pos
  | fuel + 1, pos =>
    if pos < buf.length then
      let c := byteAt buf pos
      if c = delim then pos + 1
      else if c = 92 then sbd_go buf delim fuel (pos + 2)
      else sbd_go buf delim fuel (pos + 1)
    else pos

/-- Modelled from the spec: `skip_by_delim` (in `string.rs`, outside the
studied file) consumes the literal up to and including its matching
delimiter, honoring escapes. -/
def skip_by_delim (buf : List Nat) (delim : Nat) (pos : Nat) : Nat :=
  sbd_go buf delim (buf.length - pos) pos

/-- Modelled from the spec: `get_preproc_name` reads the directive keyword
with the same byte-kind loop as `get_preproc_identifier`. -/
def get_preproc_name (buf : List Nat) (pos : Nat) : List Nat × Nat :=
  get_preproc_identifier buf pos

/-- `stop_skipping`: called after a newline with whitespace skipped.  On an
exhausted buffer report stop (`true`); on a `#` at the line start, dispatch
to the matching conditional handler (`get_if` / `get_elif` / `get_else` /
`get_endif`) keyed by a keyword starting with `i` or `e`, returning the
handler's verdict; on anything else report `false`.  The outer `Option` is
`none` for the `unreachable!()` paths of `get_elif` / `get_else` (an empty
conditional stack). -/
def stop_skipping (buf : List Nat) (o : PPOracle) (st : PPState) :
    Option (Except LexerError (Bool × PPState)) :=
  if st.bufpos < buf.length then
    let c := byteAt buf st.bufpos
    if c = 35 then
      let raw_pos := st.bufpos
      let p := skip_whites buf (st.bufpos + 1)
      let c2 := byteAt buf p
      if c2 = 105 then
        let r := get_preproc_name buf (p + 1)
        let st1 := { st with bufpos := r.2 }
        if r.1 = [102] then some (.ok (get_if o .If raw_pos st1))
        else if r.1 = [102, 100, 101, 102] then
          some (.ok (get_if o .Ifdef raw_pos st1))
        else if r.1 = [102, 110, 100, 101, 102] then
          some (.ok (get_if o .Ifndef raw_pos st1))
        else some (.ok (false, st1))
      else if c2 = 101 then
        let r := get_preproc_name buf (p + 1)
        let st1 := { st with bufpos := r.2 }
        if r.1 = [108, 105, 102] then
          match get_elif o raw_pos st1 with
          | some res => some (.ok res)
          | none => none
        else if r.1 = [108, 115, 101] then
          match get_else raw_pos st1 with
          | some res => some (.ok res)
          | none => none
        else if r.1 = [110, 100, 105, 102] then
          match get_endif raw_pos (raw_pos, r.2) st1 with
          | (.ok b, st2) => some (.ok (b, st2))
          | (.error e, _) => some (.error e)
        else some (.ok (false, st1))
      else some (.ok (false, { st with bufpos := p }))
    else some (.ok (false, st))
  else some (.ok (true, st))

/-- The inner loop of `skip_until_else_endif` that checks consecutive line
starts: skip whitespace, ask `stop_skipping`, and keep looping while the
cursor moved and the previous byte is a newline.  The boolean of an `ok`
result records whether `skip_until_else_endif` must return `Ok(())`
(`stop_skipping` said stop) or fall through to the byte scan. -/
def line_checks (buf : List Nat) (o : PPOracle) :
    Nat → PPState → Option (Except LexerError (Bool × PPState))
  | 0, _ => none
  | fuel + 1, st =>
    let spos := st.bufpos
    let st1 := { st with bufpos := skip_whites buf st.bufpos }
    match stop_skipping buf o st1 with
    | none => none
    | some (.error e) => some (.error e)
    | some (.ok (true, st2)) => some (.ok (true, st2))
    | some (.ok (false, st2)) =>
      if spos = st2.bufpos ∨ byteAt buf (st2.bufpos - 1) ≠ 10 then
        some (.ok (false, st2))
      else line_checks buf o fuel st2

/-- The main byte scan of `skip_until_else_endif`: consume one byte; handle
string and character literals atomically, re-run the line checks after a
newline, skip comments after a slash, and fall through on everything else;
an exhausted buffer ends the scan with `Ok(())`. -/
def byte_loop (buf : List Nat) (o : PPOracle) :
    Nat → PPState → Option (Except LexerError PPState)
  | 0, _ => none
  | fuel + 1, st =>
    if st.bufpos < buf.length then
      let c := byteAt buf st.bufpos
      let st1 := { st with bufpos := st.bufpos + 1 }
      let k := ppkind c
      if k = Kind.QUO then
        byte_loop buf o fuel
          { st1 with bufpos := skip_by_delim buf c st1.bufpos }
      else if k = Kind.RET then
        match line_checks buf o fuel st1 with
        | none => none
        | some (.error e) => some (.error e)
        | some (.ok (true, st2)) => some (.ok st2)
        | some (.ok (false, st2)) => byte_loop buf o fuel st2
      else if k = Kind.SLA then
        byte_loop buf o fuel
          { st1 with bufpos := (skip_slash_or_not buf st1.bufpos).2 }
      else byte_loop buf o fuel st1
    else some (.ok st)

/-- `skip_until_else_endif`: run the line checks once from the current
position, then the byte scan. -/
def skip_until_else_endif (buf : List Nat) (o : PPOracle) (fuel : Nat)
    (st : PPState) : Option (Except LexerError PPState) :=
  match line_checks buf o fuel st with
  | none => none
  | some (.error e) => some (.error e)
  | some (.ok (true, st1)) => some (.ok st1)
  | some (.ok (false, st1)) => byte_loop buf o fuel st1

/-- The whitespace scan never moves backwards. -/
theorem skip_whites_go_ge (buf : List Nat) :
    ∀ fuel p, p ≤ skip_whites_go buf fuel p := by
  intro fuel
  induction fuel with
  | zero => intro p; exact Nat.le_refl p
  | succ f ih =>
    intro p
    by_cases hc : p < buf.length ∧ ppkind (byteAt buf p) = Kind.SPA
    · simp only [skip_whites_go, if_pos hc]
      exact le_trans (Nat.le_succ p) (ih (p + 1))
    · simp only [skip_whites_go, if_neg hc]
      exact Nat.le_refl p

theorem skip_whites_ge (buf : List Nat) (p : Nat) : p ≤ skip_whites buf p :=
  skip_whites_go_ge buf _ p

theorem skip_until_go_ge (buf : List Nat) (t : Nat) :
    ∀ fuel p, p ≤ skip_until_go buf t fuel p := by
  intro fuel
  induction fuel with
  | zero => intro p; exact Nat.le_refl p
  | succ f ih =>
    intro p
    by_cases hc : p < buf.length ∧ byteAt buf p ≠ t
    · simp only [skip_until_go, if_pos hc]
      exact le_trans (Nat.le_succ p) (ih (p + 1))
    · simp only [skip_until_go, if_neg hc]
      exact Nat.le_refl p

theorem skip_until_ge (buf : List Nat) (t p : Nat) : p ≤ skip_until buf t p :=
  skip_until_go_ge buf t _ p

theorem smc_go_ge (buf : List Nat) :
    ∀ fuel p, p ≤ smc_go buf fuel p := by
  intro fuel
  induction fuel with
  | zero => intro p; exact Nat.le_refl p
  | succ f ih =>
    intro p
    simp only [smc_go]
    by_cases h1 : p < buf.length
    · rw [if_pos h1]
      by_cases h2 : byteAt buf p = 42 ∧ byteAt buf (p + 1) = 47
      · rw [if_pos h2]; omega
      · rw [if_neg h2]
        exact le_trans (Nat.le_succ p) (ih (p + 1))
    · rw [if_neg h1]

theorem skip_multiline_comment_ge (buf : List Nat) (p : Nat) :
    p ≤ skip_multiline_comment buf p :=
  smc_go_ge buf _ p

theorem sbd_go_ge (buf : List Nat) (d : Nat) :
    ∀ fuel p, p ≤ sbd_go buf d fuel p := by
  intro fuel
  induction fuel with
  | zero => intro p; exact Nat.le_refl p
  | succ f ih =>
    intro p
    simp only [sbd_go]
    by_cases h1 : p < buf.length
    · rw [if_pos h1]
      by_cases h2 : byteAt buf p = d
      · rw [if_pos h2]; omega
      · rw [if_neg h2]
        by_cases h3 : byteAt buf p = 92
        · rw [if_pos h3]
          exact le_trans (by omega) (ih (p + 2))
        · rw [if_neg h3]
          exact le_trans (Nat.le_succ p) (ih (p + 1))
    · rw [if_neg h1]

theorem skip_by_delim_ge (buf : List Nat) (d p : Nat) :
    p ≤ skip_by_delim buf d p :=
  sbd_go_ge buf d _ p

theorem skip_slash_or_not_ge (buf : List Nat) (p : Nat) :
    p ≤ (skip_slash_or_not buf p).2 := by
  simp only [skip_slash_or_not]
  by_cases h1 : p < buf.length
  · rw [if_pos h1]
    by_cases h2 : byteAt buf p = 47
    · rw [if_pos h2]
      exact le_trans (Nat.le_succ p) (skip_until_ge buf 10 (p + 1))
    · rw [if_neg h2]
      by_cases h3 : byteAt buf p = 42
      · rw [if_pos h3]
        exact le_trans (Nat.le_succ p) (skip_multiline_comment_ge buf (p + 1))
      · rw [if_neg h3]
  · rw [if_neg h1]

/-- When the whitespace scan moved, the byte just before its end is of space
kind. -/
theorem skip_whites_go_last (buf : List Nat) :
    ∀ fuel p, p < skip_whites_go buf fuel p →
      ppkind (byteAt buf (skip_whites_go buf fuel p - 1)) = Kind.SPA := by
  intro fuel
  induction fuel with
  | zero => intro p h; simp only [skip_whites_go] at h; omega
  | succ f ih =>
    intro p h
    by_cases hc : p < buf.length ∧ ppkind (byteAt buf p) = Kind.SPA
    · simp only [skip_whites_go, if_pos hc] at h ⊢
      by_cases h2 : p + 1 < skip_whites_go buf f (p + 1)
      · exact ih (p + 1) h2
      · have hge := skip_whites_go_ge buf f (p + 1)
        have heq : skip_whites_go buf f (p + 1) = p + 1 := by omega
        rw [heq]
        simpa using hc.2
    · simp only [skip_whites_go, if_neg hc] at h
      omega

theorem skip_whites_last (buf : List Nat) (p : Nat)
    (h : p < skip_whites buf p) :
    ppkind (byteAt buf (skip_whites buf p - 1)) = Kind.SPA :=
  skip_whites_go_last buf _ p h

/-- `stop_skipping` on an exhausted buffer reports stop with the state
untouched. -/
theorem stop_skipping_exhausted (buf : List Nat) (o : PPOracle)
    (st : PPState) (h : buf.length ≤ st.bufpos) :
    stop_skipping buf o st = some (.ok (true, st)) := by
  simp only [stop_skipping]
  rw [if_neg (by omega)]

/-- `stop_skipping` on a line that does not start with `#` reports `false`
with the state untouched. -/
theorem stop_skipping_nothash (buf : List Nat) (o : PPOracle) (st : PPState)
    (hlt : st.bufpos < buf.length) (h35 : byteAt buf st.bufpos ≠ 35) :
    stop_skipping buf o st = some (.ok (false, st)) := by
  simp only [stop_skipping]
  rw [if_pos hlt, if_neg h35]

/-- On a buffer with no `#` anywhere, one round of the line checks settles
immediately: stop (`true`) when the whitespace scan exhausts the buffer, and
fall-through (`false`) otherwise, the cursor in both cases sitting after the
skipped whitespace. -/
theorem line_checks_no35 (buf : List Nat) (o : PPOracle)
    (h35 : ∀ p, byteAt buf p ≠ 35) (fuel : Nat) (stk : List IfState)
    (cch : List (Nat × Nat)) (bp : Nat) (hf : 1 ≤ fuel) :
    (buf.length ≤ skip_whites buf bp →
      line_checks buf o fuel ⟨stk, cch, bp⟩ =
        some (.ok (true, ⟨stk, cch, skip_whites buf bp⟩))) ∧
    (skip_whites buf bp < buf.length →
      line_checks buf o fuel ⟨stk, cch, bp⟩ =
        some (.ok (false, ⟨stk, cch, skip_whites buf bp⟩))) := by
  obtain ⟨f, rfl⟩ : ∃ f, fuel = f + 1 := ⟨fuel - 1, by omega⟩
  simp only [line_checks]
  constructor
  · intro hge
    rw [stop_skipping_exhausted buf o ⟨stk, cch, skip_whites buf bp⟩ hge]
  · intro hlt
    rw [stop_skipping_nothash buf o ⟨stk, cch, skip_whites buf bp⟩ hlt
      (h35 _)]
    have hcond : bp = skip_whites buf bp ∨
        byteAt buf (skip_whites buf bp - 1) ≠ 10 := by
      by_cases heq : bp = skip_whites buf bp
      · exact Or.inl heq
      · refine Or.inr ?_
        have hlt2 : bp < skip_whites buf bp :=
          lt_of_le_of_ne (skip_whites_ge buf bp) heq
        have hspa := skip_whites_last buf bp hlt2
        intro h10
        rw [h10] at hspa
        exact absurd hspa (by decide)
    dsimp only
    rw [if_pos hcond]

/-- On a buffer with no `#` anywhere, the byte scan always ends in `Ok`
given enough fuel. -/
theorem byte_loop_no35 (buf : List Nat) (o : PPOracle)
    (h35 : ∀ p, byteAt buf p ≠ 35) :
    ∀ fuel st, buf.length - st.bufpos < fuel →
      ∃ st', byte_loop buf o fuel st = some (.ok st') := by
  intro fuel
  induction fuel with
  | zero => intro st h; omega
  | succ f ih =>
    intro st h
    obtain ⟨stk, cch, bp⟩ := st
    dsimp only at h
    by_cases hend : bp < buf.length
    · simp only [byte_loop, if_pos hend]
      by_cases hq : ppkind (byteAt buf bp) = Kind.QUO
      · rw [if_pos hq]
        apply ih
        have := skip_by_delim_ge buf (byteAt buf bp) (bp + 1)
        dsimp only
        omega
      · rw [if_neg hq]
        by_cases hr : ppkind (byteAt buf bp) = Kind.RET
        · rw [if_pos hr]
          have hf1 : 1 ≤ f := by omega
          have hlc := line_checks_no35 buf o h35 f stk cch (bp + 1) hf1
          by_cases hsw : buf.length ≤ skip_whites buf (bp + 1)
          · rw [hlc.1 hsw]
            exact ⟨_, rfl⟩
          · rw [hlc.2 (by omega)]
            apply ih
            have := skip_whites_ge buf (bp + 1)
            dsimp only
            omega
        · rw [if_neg hr]
          by_cases hs : ppkind (byteAt buf bp) = Kind.SLA
          · rw [if_pos hs]
            apply ih
            have := skip_slash_or_not_ge buf (bp + 1)
            dsimp only
            omega
          · rw [if_neg hs]
            apply ih
            dsimp only
            omega
    · exact ⟨⟨stk, cch, bp⟩, by simp [byte_loop, hend]⟩

/-- C10: `stop_skipping` reports stop on an exhausted buffer, and on a
skipped region containing no `#` byte (an unterminated skipped conditional
with no branch directive before end of input) `skip_until_else_endif`
returns `Ok(())` — no diagnostic is produced. -/
theorem skip_until_else_endif_no_directive (buf : List Nat) (o : PPOracle)
    (fuel : Nat) (st stEx : PPState)
    (h35 : ∀ p, p < buf.length → byteAt buf p ≠ 35)
    (hfuel : buf.length - st.bufpos < fuel)
    (hex : buf.length ≤ stEx.bufpos) :
    stop_skipping buf o stEx = some (.ok (true, stEx)) ∧
    ∃ st', skip_until_else_endif buf o fuel st = some (.ok st') := by
  have h35' : ∀ p, byteAt buf p ≠ 35 := by
    intro p
    by_cases hp : p < buf.length
    · exact h35 p hp
    · have hz : byteAt buf p = 0 :=
        List.getD_eq_default buf 0 (by omega)
      rw [hz]
      decide
  refine ⟨stop_skipping_exhausted buf o stEx hex, ?_⟩
  obtain ⟨stk, cch, bp⟩ := st
  dsimp only at hfuel
  have hf1 : 1 ≤ fuel := by omega
  have hlc := line_checks_no35 buf o h35' fuel stk cch bp hf1
  simp only [skip_until_else_endif]
  by_cases hsw : buf.length ≤ skip_whites buf bp
  · rw [hlc.1 hsw]
    exact ⟨_, rfl⟩
  · rw [hlc.2 (by omega)]
    apply byte_loop_no35 buf o h35' fuel
    have := skip_whites_ge buf bp
    dsimp only
    omega

/-- Witness for C10: a `#`-free buffer `"x\ny"` scanned from its start with
the chain's `SkipAndSwitch` entry on the stack, and an exhausted cursor for
the stop report. -/
theorem skip_until_else_endif_no_directive_witness :
    stop_skipping [120, 10, 121] ⟨fun _ => false, fun _ => false⟩
        ⟨[], [], 7⟩ = some (.ok (true, ⟨[], [], 7⟩)) ∧
    ∃ st', skip_until_else_endif [120, 10, 121]
        ⟨fun _ => false, fun _ => false⟩ 10
        ⟨[IfState.SkipAndSwitch 0], [], 0⟩ = some (.ok st') :=
  skip_until_else_endif_no_directive [120, 10, 121]
    ⟨fun _ => false, fun _ => false⟩ 10 ⟨[IfState.SkipAndSwitch 0], [], 0⟩
    ⟨[], [], 7⟩ (by decide) (by decide) (by decide)
